import Mathlib

/-!
Verification development for the `funtup` combinator library
(`src/funtup.hpp`, `src/funtup_test.cpp`).

The library is a C++ header of compile-time combinators over arbitrary
callables.  We embed it shallowly: runtime values form a small universe
`Val` (machine integers, `std::tuple` aggregates, and the `void_t`
sentinel), the outcome of invoking a callable is a `Res` (a value, or a
genuine `void` return), and a callable is a function from positional
argument lists to `Option Res`, where `none` models "this invocation is
ill-formed" (in C++ the call would fail to compile).  Template dispatch
that C++ resolves statically (SFINAE, overload partial ordering) becomes
case analysis on the argument shape, and a compile-time type error at any
stage of a combinator propagates as `none`.
-/

namespace funtup

/-- The universe of runtime values flowing through the combinators in the
tests: C++ `int`, `std::tuple` aggregates, and `funtup::void_t`.
`vvoid` embeds `struct void_t {};` (funtup.hpp line 41), the storable
sentinel substituted for a `void` return. -/
inductive Val : Type where
  | vint : Int → Val
  | vtuple : List Val → Val
  | vvoid : Val

mutual
/-- Decidable equality on the value universe (structural, as in C++ where
tuples compare componentwise), mutually with element-list equality. -/
def Val.decEq : (a b : Val) → Decidable (a = b)
  | .vvoid, .vvoid => isTrue rfl
  | .vvoid, .vint _ => isFalse (fun h => Val.noConfusion h)
  | .vvoid, .vtuple _ => isFalse (fun h => Val.noConfusion h)
  | .vint _, .vvoid => isFalse (fun h => Val.noConfusion h)
  | .vint a, .vint b =>
    decidable_of_iff (a = b) ⟨fun h => h ▸ rfl, fun h => by injection h⟩
  | .vint _, .vtuple _ => isFalse (fun h => Val.noConfusion h)
  | .vtuple _, .vvoid => isFalse (fun h => Val.noConfusion h)
  | .vtuple _, .vint _ => isFalse (fun h => Val.noConfusion h)
  | .vtuple xs, .vtuple ys =>
    match Val.decEqList xs ys with
    | isTrue h => isTrue (by rw [h])
    | isFalse h => isFalse (fun hc => by injection hc with h2; exact h h2)

/-- Decidable equality on lists of values (the elements of a tuple). -/
def Val.decEqList : (xs ys : List Val) → Decidable (xs = ys)
  | [], [] => isTrue rfl
  | [], _ :: _ => isFalse (fun h => List.noConfusion h)
  | _ :: _, [] => isFalse (fun h => List.noConfusion h)
  | x :: xs, y :: ys =>
    match Val.decEq x y, Val.decEqList xs ys with
    | isTrue h1, isTrue h2 => isTrue (by rw [h1, h2])
    | isFalse h1, _ => isFalse (fun hc => by injection hc with a b; exact h1 a)
    | _, isFalse h2 => isFalse (fun hc => by injection hc with a b; exact h2 b)
end

instance : DecidableEq Val := Val.decEq

/-- The natural outcome of invoking a callable: either a value, or a
`void` return (`Res.rvoid`), which is not storable until the void-safe
invoker replaces it with the `Val.vvoid` sentinel. -/
inductive Res : Type where
  | val : Val → Res
  | rvoid : Res
deriving DecidableEq

/-- A callable: a map from positional argument lists to invocation
outcomes.  `none` means the invocation does not type-check (a
compile-time error in C++). -/
abbrev Prim : Type := List Val → Option Res

/-- `gen_seq` (funtup.hpp lines 57-65): the iterative generator of an
index sequence.  `gen_seq<N, S...>` derives from `gen_seq<N-1, N-1, S...>`
until `N = 0`, where the accumulated pack is the sequence. -/
def gen_seq : Nat → List Nat → List Nat
  | 0, acc => acc
  | n + 1, acc => gen_seq n (n :: acc)

/-- `make_seq` (funtup.hpp lines 70-80): the index sequence `0..N-1` for a
pack or tuple of size `N`. -/
def make_seq (n : Nat) : List Nat := gen_seq n []

/-- `_apply_novoid` (funtup.hpp lines 105-123): the void-safe invoker.
The `enable_if<returns_void...>` overload calls the function and returns
`void_t()`; the other overload returns the function's own result. -/
def _apply_novoid (f : Prim) (args : List Val) : Option Val :=
  match f args with
  | some (Res.val v) => some v
  | some Res.rvoid => some Val.vvoid
  | none => none

/-- `_apply_tuple` (funtup.hpp lines 128-137): applies the functions of a
tuple, selected by an index sequence, to the arguments, collecting
`make_tuple(_apply_novoid(get<I>(funcs), args...)...)`.  An index out of
range or an ill-formed member invocation is a compile-time error,
modelled as `none`. -/
def _apply_tuple (fs : List Prim) (idxs : List Nat) (args : List Val) :
    Option (List Val) :=
  match idxs with
  | [] => some []
  | i :: rest =>
    match (fs[i]?).bind (fun f => _apply_novoid f args),
          _apply_tuple fs rest args with
    | some v, some vs => some (v :: vs)
    | _, _ => none

/-- `battery_t::operator()` via `apply_tuple` (funtup.hpp lines 320-329
and 385-396): invoke every held callable with the same arguments and
return the tuple of void-safe results. -/
def batteryRun (fs : List Prim) (args : List Val) : Option Res :=
  (_apply_tuple fs (make_seq fs.length) args).map
    (fun vs => Res.val (Val.vtuple vs))

/-- `pipe_t` (funtup.hpp lines 148-181).  The base case invokes the single
held callable on the arguments; the inductive case invokes the head on
the arguments and feeds its result, as the sole argument, to the pipe of
the tails.  A `void` result of a non-final stage cannot be passed on
(compile-time error, `none`); an empty pack has no `operator()` at all. -/
def pipeRun : List Prim → List Val → Option Res
  | [], _ => none
  | [c], args => c args
  | c :: d :: cs, args =>
    match c args with
    | some (Res.val v) => pipeRun (d :: cs) [v]
    | _ => none

/-- `compose_t` (funtup.hpp lines 196-229).  The base case invokes the
single held callable on the arguments; the inductive case first invokes
the composition of the tails on the arguments and then applies the head
to that result: `head_m(compose_t<Tails...>::operator()(args...))`. -/
def composeRun : List Prim → List Val → Option Res
  | [], _ => none
  | [c], args => c args
  | c :: d :: cs, args =>
    match composeRun (d :: cs) args with
    | some (Res.val v) => c [v]
    | _ => none

/-- `apply_unpack_t` (funtup.hpp lines 266-294) together with
`unpack_and_apply` (lines 249-261).  When the adapter is invoked with a
single `std::tuple` (by value or any reference), overload partial
ordering prefers the tuple overloads, whose SFINAE condition is that the
wrapped callable accepts the unpacked elements; if that call is
ill-formed the variadic overload forwards the arguments unchanged.  Any
other argument shape is forwarded unchanged. -/
def auto_unpack (f : Prim) : Prim := fun args =>
  match args with
  | [Val.vtuple elems] =>
    match f elems with
    | some r => some r
    | none => f [Val.vtuple elems]
  | _ => f args

/-!
Effectful refinement of the same source.  C++ callables run inside an
ambient mutable memory; to reason about side effects and about the
`const`-qualified call operators we re-run the very same combinator code
while threading an explicit external state `σ` through each underlying
invocation.  Every definition below mirrors its pure counterpart above
line for line; the only difference is the state parameter.
-/

/-- An effectful callable: invocation observes and transforms an ambient
state `σ` in addition to producing its outcome. -/
abbrev EffPrim (σ : Type) : Type := List Val → σ → σ × Option Res

/-- A callable with no effect on the ambient state: it behaves as a pure
`Prim` lifted into the effectful world.  This is the meaning of a functor
whose `operator()` is `const` and touches no outside memory. -/
def liftPrim {σ : Type} (g : Prim) : EffPrim σ := fun args s => (s, g args)

/-- `_apply_novoid` (funtup.hpp lines 105-110), effectful version: the
void overload still performs the call `func(args...)` — so its state
effect happens — and then returns `void_t()`. -/
def _apply_novoid_eff {σ : Type} (f : EffPrim σ) (args : List Val) (s : σ) :
    σ × Option Val :=
  match f args s with
  | (s2, some (Res.val v)) => (s2, some v)
  | (s2, some Res.rvoid) => (s2, some Val.vvoid)
  | (s2, none) => (s2, none)

/-- `_apply_tuple` (funtup.hpp lines 128-137), effectful version,
invoking the members in tuple order (the order documented at
`apply_tuple`, funtup.hpp lines 316-318). -/
def _apply_tuple_eff {σ : Type} (fs : List (EffPrim σ)) (args : List Val)
    (s : σ) : σ × Option (List Val) :=
  match fs with
  | [] => (s, some [])
  | f :: rest =>
    let p := _apply_novoid_eff f args s
    let q := _apply_tuple_eff rest args p.1
    (q.1, match p.2, q.2 with
          | some v, some vs => some (v :: vs)
          | _, _ => none)

/-- `battery_t::operator()` (funtup.hpp lines 385-396), effectful
version. -/
def batteryRunE {σ : Type} (fs : List (EffPrim σ)) : EffPrim σ :=
  fun args s =>
    let p := _apply_tuple_eff fs args s
    (p.1, p.2.map (fun vs => Res.val (Val.vtuple vs)))

/-- `pipe_t` (funtup.hpp lines 148-181), effectful version. -/
def pipeRunE {σ : Type} : List (EffPrim σ) → List Val → σ → σ × Option Res
  | [], _, s => (s, none)
  | [c], args, s => c args s
  | c :: d :: cs, args, s =>
    match c args s with
    | (s1, some (Res.val v)) => pipeRunE (d :: cs) [v] s1
    | (s1, _) => (s1, none)

/-- `compose_t` (funtup.hpp lines 196-229), effectful version. -/
def composeRunE {σ : Type} : List (EffPrim σ) → List Val → σ → σ × Option Res
  | [], _, s => (s, none)
  | [c], args, s => c args s
  | c :: d :: cs, args, s =>
    match composeRunE (d :: cs) args s with
    | (s1, some (Res.val v)) => c [v] s1
    | (s1, _) => (s1, none)

/-- `apply_unpack_t` (funtup.hpp lines 266-294), effectful version.  The
choice between the unpack overload and the forwarding overload is made by
the compiler, so probing the unpack path has no state effect: only the
branch actually selected runs. -/
def auto_unpack_eff {σ : Type} (f : EffPrim σ) : EffPrim σ := fun args s =>
  match args with
  | [Val.vtuple elems] =>
    match f elems s with
    | (_, none) => f [Val.vtuple elems] s
    | r => r
  | _ => f args s

/-!
Ownership model for `clone` (funtup.hpp lines 424-427).  A combinator
built by `pipe`/`compose`/`battery` stores each functor with the deduced
reference category: passing an lvalue stores a reference into the
caller's memory, while passing the result of `clone` — which returns
`std::decay<T>::type`, a fresh value with all reference qualifiers
stripped — stores an independent value.  We model C++ memory as a heap of
functor states addressed by `Nat`: a stored functor is either an owned
value or a reference to a heap cell, and `clone` materialises the current
referent as an owned value.
-/

/-- A functor slot inside a combinator: an owned value (value semantics)
or a reference into the caller's heap (reference semantics). -/
inductive Stored (α : Type) : Type where
  | byValue : α → Stored α
  | byRef : Nat → Stored α

/-- Read the functor state a slot designates under heap `h`. -/
def derefStored {α : Type} (h : Nat → α) : Stored α → α
  | .byValue c => c
  | .byRef a => h a

/-- `clone` (funtup.hpp lines 424-427): `std::decay<T>::type` of the
argument — a value copy of whatever the slot currently designates,
stripped of its reference qualifier. -/
def clone {α : Type} (h : Nat → α) (s : Stored α) : Stored α :=
  .byValue (derefStored h s)

/-- `add3` from funtup_test.cpp line 6: `a + 3` on one `int`. -/
def add3 : Prim := fun args =>
  match args with
  | [Val.vint a] => some (Res.val (Val.vint (a + 3)))
  | _ => none

/-- `mul3` from funtup_test.cpp line 7: `a * 3` on one `int`. -/
def mul3 : Prim := fun args =>
  match args with
  | [Val.vint a] => some (Res.val (Val.vint (a * 3)))
  | _ => none

/-- `add` from funtup_test.cpp line 8: `a + b` on two `int`s. -/
def add : Prim := fun args =>
  match args with
  | [Val.vint a, Val.vint b] => some (Res.val (Val.vint (a + b)))
  | _ => none

/-- `mul` from funtup_test.cpp line 9: `a * b` on two `int`s. -/
def mul : Prim := fun args =>
  match args with
  | [Val.vint a, Val.vint b] => some (Res.val (Val.vint (a * b)))
  | _ => none

/-- `divint` from funtup_test.cpp lines 11-13:
`make_tuple(a / b, a % b)` with C++ truncated `int` division. -/
def divint : Prim := fun args =>
  match args with
  | [Val.vint a, Val.vint b] =>
    some (Res.val (Val.vtuple [Val.vint (Int.tdiv a b), Val.vint (Int.tmod a b)]))
  | _ => none

end funtup

namespace funtup

/-- `gen_seq` accumulates exactly the positions `0..n-1`, in order, in
front of its accumulator. -/
theorem gen_seq_eq_range (n : Nat) : ∀ acc : List Nat,
    gen_seq n acc = List.range n ++ acc := by
  induction n with
  | zero => intro acc; simp [gen_seq]
  | succ n ih =>
    intro acc
    rw [gen_seq, ih, List.range_succ]
    simp

/-- The index-sequence generator produces the ordered positions
`0..n-1`. -/
theorem make_seq_eq_range (n : Nat) : make_seq n = List.range n := by
  rw [make_seq, gen_seq_eq_range]
  simp

/-- What a successful `_apply_tuple` returns: one void-safe result per
index, in index order. -/
theorem apply_tuple_sound (fs : List Prim) (args : List Val) :
    ∀ (idxs : List Nat) (out : List Val),
      _apply_tuple fs idxs args = some out →
      out.length = idxs.length ∧
      ∀ (j : Nat) (hj : j < idxs.length),
        out[j]? = (fs[idxs[j]]?).bind fun f => _apply_novoid f args := by
  intro idxs
  induction idxs with
  | nil =>
    intro out h
    rw [_apply_tuple] at h
    injection h with h2
    subst h2
    exact ⟨rfl, fun j hj => absurd hj (by simp)⟩
  | cons i rest ih =>
    intro out h
    rw [_apply_tuple] at h
    cases hv : (fs[i]?).bind (fun f => _apply_novoid f args) with
    | none => rw [hv] at h; cases h
    | some v =>
      cases hr : _apply_tuple fs rest args with
      | none => rw [hv, hr] at h; cases h
      | some vs =>
        rw [hv, hr] at h
        injection h with h2
        subst h2
        obtain ⟨hlen, hidx⟩ := ih vs hr
        refine ⟨by simp [hlen], ?_⟩
        intro j hj
        cases j with
        | zero => simpa using hv.symm
        | succ j2 =>
          have hj2 : j2 < rest.length := by simpa using hj
          simpa using hidx j2 hj2

/-- `_apply_tuple` succeeds when every selected member invocation is
well-formed. -/
theorem apply_tuple_total (fs : List Prim) (args : List Val) :
    ∀ idxs : List Nat,
      (∀ i ∈ idxs, (fs[i]?).bind (fun f => _apply_novoid f args) ≠ none) →
      ∃ out, _apply_tuple fs idxs args = some out := by
  intro idxs
  induction idxs with
  | nil => intro _; exact ⟨[], rfl⟩
  | cons i rest ih =>
    intro hall
    obtain ⟨v, hv⟩ :=
      Option.ne_none_iff_exists.mp (hall i (by simp))
    obtain ⟨vs, hvs⟩ := ih (fun j hj => hall j (by simp [hj]))
    refine ⟨v :: vs, ?_⟩
    rw [_apply_tuple, ← hv, hvs]

/-- What a successful battery invocation returns: slot `i` holds the
void-safe result of the `i`-th held callable on the shared arguments. -/
theorem batteryRun_sound (fs : List Prim) (args : List Val)
    (out : List Val)
    (h : batteryRun fs args = some (Res.val (Val.vtuple out))) :
    out.length = fs.length ∧
    ∀ (i : Nat) (hi : i < fs.length),
      out[i]? = _apply_novoid (fs[i]) args := by
  unfold batteryRun at h
  cases ht : _apply_tuple fs (make_seq fs.length) args with
  | none => rw [ht] at h; cases h
  | some vs =>
    rw [ht] at h
    injection h with h2
    injection h2 with h3
    injection h3 with h4
    subst h4
    obtain ⟨hlen, hidx⟩ := apply_tuple_sound fs args _ _ ht
    rw [make_seq_eq_range] at hlen hidx
    constructor
    · simpa using hlen
    · intro i hi
      have hi2 : i < (List.range fs.length).length := by simpa using hi
      have := hidx i hi2
      rw [List.getElem_range] at this
      rw [this, List.getElem?_eq_getElem hi]
      rfl

/-- Running a pipe whose last stage is `c` first runs the earlier stages
and then applies `c` to their value result. -/
theorem pipeRun_append_last (c : Prim) :
    ∀ (xs : List Prim) (args : List Val), xs ≠ [] →
      pipeRun (xs ++ [c]) args =
      match pipeRun xs args with
      | some (Res.val v) => c [v]
      | _ => none := by
  intro xs
  induction xs with
  | nil => intro args h; exact absurd rfl h
  | cons x tail ih =>
    intro args _
    cases tail with
    | nil =>
      show pipeRun [x, c] args = _
      cases hx : x args with
      | none => simp [pipeRun, hx]
      | some r =>
        cases r with
        | val v => simp [pipeRun, hx]
        | rvoid => simp [pipeRun, hx]
    | cons y ys =>
      show pipeRun (x :: ((y :: ys) ++ [c])) args = _
      have hcons : (y :: ys) ++ [c] = y :: (ys ++ [c]) := rfl
      rw [hcons, pipeRun]
      cases hx : x args with
      | none => simp [pipeRun, hx]
      | some r =>
        cases r with
        | rvoid => simp [pipeRun, hx]
        | val v =>
          show pipeRun ((y :: ys) ++ [c]) [v] =
            match pipeRun (x :: y :: ys) args with
            | some (Res.val v) => c [v]
            | _ => none
          rw [ih [v] (by simp)]
          simp [pipeRun, hx]

/-- The void-safe invoker commutes with lifting a pure callable into the
effectful world. -/
theorem lift_apply_novoid {σ : Type} (g : Prim) (args : List Val) (s : σ) :
    _apply_novoid_eff (liftPrim g) args s = (s, _apply_novoid g args) := by
  unfold _apply_novoid_eff _apply_novoid liftPrim
  cases g args with
  | none => rfl
  | some r => cases r with
    | val v => rfl
    | rvoid => rfl

/-- Selecting positions `i+1` from a tuple with one extra front member is
selecting positions `i` from the remaining members. -/
theorem apply_tuple_shift (f : Prim) (fs : List Prim) (args : List Val) :
    ∀ idxs : List Nat,
      _apply_tuple (f :: fs) (idxs.map Nat.succ) args =
      _apply_tuple fs idxs args := by
  intro idxs
  induction idxs with
  | nil => rfl
  | cons i rest ih =>
    rw [List.map_cons, _apply_tuple, _apply_tuple, ih]
    simp

/-- The index-driven tuple application of lifted callables is the pure
index-driven tuple application, with the state untouched. -/
theorem lift_apply_tuple {σ : Type} (args : List Val) :
    ∀ (fs : List Prim) (s : σ),
      _apply_tuple_eff (fs.map liftPrim) args s =
      (s, _apply_tuple fs (make_seq fs.length) args) := by
  intro fs
  induction fs with
  | nil => intro s; rfl
  | cons f rest ih =>
    intro s
    rw [List.map_cons, _apply_tuple_eff]
    simp only [lift_apply_novoid, ih]
    rw [make_seq_eq_range, make_seq_eq_range, List.length_cons,
      List.range_succ_eq_map, _apply_tuple, apply_tuple_shift]
    simp

/-- A battery of lifted pure callables is the lifted pure battery. -/
theorem lift_battery {σ : Type} (fs : List Prim) :
    batteryRunE (σ := σ) (fs.map liftPrim) = liftPrim (batteryRun fs) := by
  funext args s
  simp only [batteryRunE, batteryRun, liftPrim]
  rw [lift_apply_tuple]

/-- A pipe of lifted pure callables is the lifted pure pipe. -/
theorem lift_pipe {σ : Type} :
    ∀ gs : List Prim,
      pipeRunE (σ := σ) (gs.map liftPrim) = liftPrim (pipeRun gs) := by
  intro gs
  induction gs with
  | nil => funext args s; rfl
  | cons g tail ih =>
    cases tail with
    | nil => funext args s; rfl
    | cons d ds =>
      funext args s
      simp only [List.map_cons]
      rw [pipeRunE]
      cases hg : g args with
      | none => simp [pipeRun, liftPrim, hg]
      | some r =>
        cases r with
        | rvoid => simp [pipeRun, liftPrim, hg]
        | val v =>
          simp only [liftPrim, hg]
          rw [show ((liftPrim d : EffPrim σ) :: List.map liftPrim ds) =
              (d :: ds).map liftPrim from rfl, ih]
          simp [pipeRun, liftPrim, hg]

/-- A composition of lifted pure callables is the lifted pure
composition. -/
theorem lift_compose {σ : Type} :
    ∀ gs : List Prim,
      composeRunE (σ := σ) (gs.map liftPrim) = liftPrim (composeRun gs) := by
  intro gs
  induction gs with
  | nil => funext args s; rfl
  | cons g tail ih =>
    cases tail with
    | nil => funext args s; rfl
    | cons d ds =>
      funext args s
      simp only [List.map_cons]
      rw [composeRunE]
      rw [show ((liftPrim d : EffPrim σ) :: List.map liftPrim ds) =
          (d :: ds).map liftPrim from rfl, ih]
      cases hc : composeRun (d :: ds) args with
      | none => simp [composeRun, liftPrim, hc]
      | some r =>
        cases r with
        | rvoid => simp [composeRun, liftPrim, hc]
        | val v => simp [composeRun, liftPrim, hc]

/-- The auto-unpack adapter on a lifted pure callable is the lifted pure
adapter. -/
theorem lift_auto_unpack {σ : Type} (g : Prim) :
    auto_unpack_eff (σ := σ) (liftPrim g) = liftPrim (auto_unpack g) := by
  funext args s
  cases args with
  | nil => rfl
  | cons a tail =>
    cases tail with
    | cons b rest => cases a <;> rfl
    | nil =>
      cases a with
      | vint x => rfl
      | vvoid => rfl
      | vtuple elems =>
        simp only [auto_unpack_eff, auto_unpack, liftPrim]
        cases g elems with
        | none => rfl
        | some r => rfl

/-- Claim C1, counterexample: the spec sentence
`compose(f, g)(x) == g(f(x))` fails on the code.  At `f = add3`,
`g = mul3`, `x = 2` we have `f(2) = 5` and `g(f(2)) = 15`, but
`compose(f, g)(2) = 9`: `compose_t` applies its last-listed callable to
the original arguments and its first-listed callable last. -/
theorem compose_order_cex :
    add3 [Val.vint 2] = some (Res.val (Val.vint 5))
    ∧ mul3 [Val.vint 5] = some (Res.val (Val.vint 15))
    ∧ composeRun [add3, mul3] [Val.vint 2] = some (Res.val (Val.vint 9))
    ∧ composeRun [add3, mul3] [Val.vint 2] ≠ mul3 [Val.vint 5] :=
  ⟨rfl, rfl, rfl, by decide⟩

/-- Claim C1 (amended): `compose(c0, ..., cn-1)(args...)` evaluates
`cn-1` on the original arguments first and each earlier stage on the
following stage's result, returning `c0`'s result; in particular
`compose(f, g)(x) == f(g(x))`. -/
theorem compose_applies_last_first :
    (∀ (c : Prim) (args : List Val), composeRun [c] args = c args)
    ∧ (∀ (f g : Prim) (x v : Val) (r : Res),
        g [x] = some (Res.val v) → f [v] = some r →
        composeRun [f, g] [x] = some r)
    ∧ (∀ (c : Prim) (cs : List Prim) (args : List Val) (v : Val),
        cs ≠ [] → composeRun cs args = some (Res.val v) →
        composeRun (c :: cs) args = c [v]) := by
  refine ⟨fun c args => rfl, ?_, ?_⟩
  · intro f g x v r hg hf
    simp [composeRun, hg, hf]
  · intro c cs args v hne hc
    cases cs with
    | nil => exact absurd rfl hne
    | cons d ds => simp [composeRun, hc]

/-- Witness for C1's amended theorem at the test's callables:
`compose(add3, mul3)(2) = add3(mul3(2)) = add3(6) = 9`. -/
theorem compose_applies_last_first_witness :
    composeRun [add3, mul3] [Val.vint 2] = some (Res.val (Val.vint 9))
    ∧ composeRun [add3, mul3] [Val.vint 2] = add3 [Val.vint 6] :=
  ⟨compose_applies_last_first.2.1 add3 mul3 (Val.vint 2) (Val.vint 6)
      (Res.val (Val.vint 9)) rfl rfl,
   compose_applies_last_first.2.2 add3 [mul3] [Val.vint 2] (Val.vint 6)
      (List.cons_ne_nil _ _) rfl⟩

/-- Claim C2: when every member callable is invocable with the shared
arguments, the battery returns the ordered tuple whose `i`-th slot is the
void-safe result of the `i`-th member (declaration order). -/
theorem battery_result_spec :
    ∀ (fs : List Prim) (args : List Val),
      (∀ (i : Nat) (hi : i < fs.length), _apply_novoid (fs[i]) args ≠ none) →
      ∃ out : List Val,
        batteryRun fs args = some (Res.val (Val.vtuple out))
        ∧ out.length = fs.length
        ∧ ∀ (i : Nat) (hi : i < fs.length),
            out[i]? = _apply_novoid (fs[i]) args := by
  intro fs args hall
  have htot : ∀ i ∈ make_seq fs.length,
      (fs[i]?).bind (fun f => _apply_novoid f args) ≠ none := by
    intro i hi
    rw [make_seq_eq_range] at hi
    have hilt : i < fs.length := List.mem_range.mp hi
    rw [List.getElem?_eq_getElem hilt]
    simpa using hall i hilt
  obtain ⟨out, hout⟩ := apply_tuple_total fs args (make_seq fs.length) htot
  have hbat : batteryRun fs args = some (Res.val (Val.vtuple out)) := by
    rw [batteryRun, hout]
    rfl
  obtain ⟨hlen, hidx⟩ := batteryRun_sound fs args out hbat
  exact ⟨out, hbat, hlen, hidx⟩

/-- Witness for C2 at the test's scenario 3:
`battery(add, mul)(3, 4) == (7, 12)`. -/
theorem battery_result_spec_witness :
    ∃ out : List Val,
      batteryRun [add, mul] [Val.vint 3, Val.vint 4]
        = some (Res.val (Val.vtuple out))
      ∧ out.length = ([add, mul] : List Prim).length
      ∧ ∀ (i : Nat) (hi : i < ([add, mul] : List Prim).length),
          out[i]? = _apply_novoid (([add, mul] : List Prim)[i])
            [Val.vint 3, Val.vint 4] :=
  battery_result_spec [add, mul] [Val.vint 3, Val.vint 4] (by decide)

/-- Claim C3: the adapter satisfies both dispatch branches — on a single
two-element tuple it applies the wrapped callable to the tuple's elements
in order, and on the same values passed positionally it forwards them
unchanged. -/
theorem auto_unpack_round_trip :
    ∀ (g : Prim) (a b : Val) (r : Res),
      g [a, b] = some r →
      auto_unpack g [Val.vtuple [a, b]] = some r
      ∧ auto_unpack g [a, b] = some r := by
  intro g a b r h
  constructor
  · simp [auto_unpack, h]
  · cases a <;> simp [auto_unpack, h]

/-- Witness for C3 at the test's callable:
`auto_unpack(add)(make_tuple(2, 1)) == 3` and `auto_unpack(add)(2, 1) == 3`. -/
theorem auto_unpack_round_trip_witness :
    auto_unpack add [Val.vtuple [Val.vint 2, Val.vint 1]]
      = some (Res.val (Val.vint 3))
    ∧ auto_unpack add [Val.vint 2, Val.vint 1] = some (Res.val (Val.vint 3)) :=
  auto_unpack_round_trip add (Val.vint 2) (Val.vint 1)
    (Res.val (Val.vint 3)) rfl

/-- Claim C4: a void-returning member of a battery fills its result slot
with the `void_t` sentinel while value-returning members fill theirs with
their real results; and the void-safe invoker still performs the void
callable's invocation, so its state effect occurs. -/
theorem battery_void_sentinel :
    (∀ (fs : List Prim) (args : List Val) (out : List Val),
        batteryRun fs args = some (Res.val (Val.vtuple out)) →
        ∀ (i : Nat) (hi : i < fs.length),
          ((fs[i]) args = some Res.rvoid → out[i]? = some Val.vvoid)
          ∧ ∀ v : Val, (fs[i]) args = some (Res.val v) → out[i]? = some v)
    ∧ ∀ (σ : Type) (f : EffPrim σ) (args : List Val) (s s2 : σ),
        f args s = (s2, some Res.rvoid) →
        _apply_novoid_eff f args s = (s2, some Val.vvoid) := by
  constructor
  · intro fs args out h i hi
    obtain ⟨hlen, hidx⟩ := batteryRun_sound fs args out h
    constructor
    · intro hv
      rw [hidx i hi, _apply_novoid, hv]
    · intro v hv
      rw [hidx i hi, _apply_novoid, hv]
  · intro σ f args s s2 h
    rw [_apply_novoid_eff, h]

/-- Witness for C4: a battery of a void callable and `add`, invoked with
`(3, 4)`, puts the sentinel in slot 0 and `7` in slot 1; the effectful
invoker preserves the void callable's state increment. -/
theorem battery_void_sentinel_witness :
    ([Val.vvoid, Val.vint 7] : List Val)[0]? = some Val.vvoid
    ∧ _apply_novoid_eff (fun _ s => (s + 1, some Res.rvoid)) [] (0 : Int)
        = (1, some Val.vvoid) :=
  ⟨(battery_void_sentinel.1 [fun _ => some Res.rvoid, add]
      [Val.vint 3, Val.vint 4] [Val.vvoid, Val.vint 7] rfl 0 (by decide)).1 rfl,
   battery_void_sentinel.2 Int (fun _ s => (s + 1, some Res.rvoid)) [] 0 1
     (by decide)⟩

/-- Claim C5, counterexample: `compose(f, g, h)(x) == h(g(f(x)))` fails
on the code.  At `f = add3`, `g = mul3`, `h = mul3`, `x = 2`:
`h(g(f(2))) = mul3(mul3(5)) = 45`, but
`compose(add3, mul3, mul3)(2) = add3(mul3(mul3(2))) = 21`. -/
theorem compose_three_order_cex :
    add3 [Val.vint 2] = some (Res.val (Val.vint 5))
    ∧ mul3 [Val.vint 5] = some (Res.val (Val.vint 15))
    ∧ composeRun [add3, mul3, mul3] [Val.vint 2]
      = some (Res.val (Val.vint 21))
    ∧ composeRun [add3, mul3, mul3] [Val.vint 2] ≠ mul3 [Val.vint 15] :=
  ⟨rfl, rfl, rfl, by decide⟩

/-- Claim C5 (amended): `compose(f, g, h)(x) == f(g(h(x)))`, and the
regroupings `compose(compose(f, g), h)` and `compose(f, compose(g, h))`
produce equal results for the same input (associativity of chaining). -/
theorem compose_three_regroup :
    (∀ (f g h : Prim) (args : List Val),
        composeRun [composeRun [f, g], h] args
        = composeRun [f, composeRun [g, h]] args)
    ∧ ∀ (f g h : Prim) (x v w : Val) (r : Res),
        h [x] = some (Res.val v) → g [v] = some (Res.val w) →
        f [w] = some r →
        composeRun [f, g, h] [x] = some r := by
  constructor
  · intro f g h args
    cases hh : h args with
    | none => simp [composeRun, hh]
    | some r =>
      cases r with
      | rvoid => simp [composeRun, hh]
      | val v =>
        cases hg : g [v] with
        | none => simp [composeRun, hh, hg]
        | some r2 =>
          cases r2 with
          | rvoid => simp [composeRun, hh, hg]
          | val w => simp [composeRun, hh, hg]
  · intro f g h x v w r hh hg hf
    simp [composeRun, hh, hg, hf]

/-- Witness for C5's amended theorem at the test's callables. -/
theorem compose_three_regroup_witness :
    composeRun [composeRun [add3, mul3], mul3] [Val.vint 2]
      = composeRun [add3, composeRun [mul3, mul3]] [Val.vint 2]
    ∧ composeRun [add3, mul3, mul3] [Val.vint 2]
      = some (Res.val (Val.vint 21)) :=
  ⟨compose_three_regroup.1 add3 mul3 mul3 [Val.vint 2],
   compose_three_regroup.2 add3 mul3 mul3 (Val.vint 2) (Val.vint 6)
     (Val.vint 18) (Res.val (Val.vint 21)) rfl rfl rfl⟩

/-- Claim C6, counterexample: `divide_with_remainder(5, 2) == (2, 1)`
holds, but `compose(divide_with_remainder, auto_unpack(add))(5, 2)` does
not return `3`: in that listing order `auto_unpack(add)` runs first,
yielding `7`, and `divint` cannot be invoked with the single `int` `7`
(an ill-formed call), so the composition is not invocable at all.  The
test instead uses `compose(auto_unpack(add), divint)` and
`pipe(divint, auto_unpack(add))`. -/
theorem scenario4_compose_order_cex :
    divint [Val.vint 5, Val.vint 2]
      = some (Res.val (Val.vtuple [Val.vint 2, Val.vint 1]))
    ∧ composeRun [divint, auto_unpack add] [Val.vint 5, Val.vint 2] = none
    ∧ composeRun [divint, auto_unpack add] [Val.vint 5, Val.vint 2]
      ≠ some (Res.val (Val.vint 3)) :=
  ⟨rfl, rfl, by decide⟩

/-- Claim C6 (amended): `divide_with_remainder(5, 2) == (2, 1)`, and the
composition with the adapter listed first —
`compose(auto_unpack(add), divint)` — returns `3` on `(5, 2)`,
equivalently `pipe(divint, auto_unpack(add))(5, 2) == 3` as asserted by
the test. -/
theorem scenario4_amended :
    divint [Val.vint 5, Val.vint 2]
      = some (Res.val (Val.vtuple [Val.vint 2, Val.vint 1]))
    ∧ composeRun [auto_unpack add, divint] [Val.vint 5, Val.vint 2]
      = some (Res.val (Val.vint 3))
    ∧ pipeRun [divint, auto_unpack add] [Val.vint 5, Val.vint 2]
      = some (Res.val (Val.vint 3)) :=
  ⟨rfl, rfl, rfl⟩

/-- Claim C7: `clone` produces an independent value-semantics duplicate,
stripped of reference qualifiers.  Invoked with the same arguments it
yields identical results, and the duplicate's referent is fixed at copy
time: under any later heap `h2` — in particular after any mutation of the
functor the original slot refers to — the copy still designates the state
captured when it was made. -/
theorem clone_independent :
    ∀ (α : Type) (h h2 : Nat → α) (s : Stored α)
      (behavior : α → List Val → Option Res) (args : List Val),
      behavior (derefStored h (clone h s)) args
        = behavior (derefStored h s) args
      ∧ derefStored h2 (clone h s) = derefStored h s :=
  fun _ _ _ _ _ _ => ⟨rfl, rfl⟩

/-- Claim C8: whenever the arguments are not a single tuple, or are a
single tuple whose unpacked call is ill-formed, the adapter forwards the
received arguments to the wrapped callable unchanged; the adapter's call
is ill-formed only when the forwarded call is ill-formed too. -/
theorem auto_unpack_fallback :
    ∀ (g : Prim) (args : List Val),
      ((∀ elems : List Val, args ≠ [Val.vtuple elems]) →
        auto_unpack g args = g args)
      ∧ (∀ elems : List Val, args = [Val.vtuple elems] → g elems = none →
          auto_unpack g args = g args)
      ∧ (auto_unpack g args = none → g args = none) := by
  intro g args
  refine ⟨?_, ?_, ?_⟩
  · intro hne
    cases args with
    | nil => rfl
    | cons a tail =>
      cases tail with
      | cons b rest => cases a <;> rfl
      | nil =>
        cases a with
        | vint x => rfl
        | vvoid => rfl
        | vtuple elems => exact absurd rfl (hne elems)
  · intro elems he hnone
    subst he
    simp [auto_unpack, hnone]
  · intro hnone
    cases args with
    | nil => exact hnone
    | cons a tail =>
      cases tail with
      | cons b rest => cases a <;> exact hnone
      | nil =>
        cases a with
        | vint x => exact hnone
        | vvoid => exact hnone
        | vtuple elems =>
          cases hg : g elems with
          | some r =>
            have hs : auto_unpack g [Val.vtuple elems] = some r := by
              simp [auto_unpack, hg]
            rw [hs] at hnone
            cases hnone
          | none =>
            have hs : auto_unpack g [Val.vtuple elems]
                = g [Val.vtuple elems] := by
              simp [auto_unpack, hg]
            rw [hs] at hnone
            exact hnone

/-- Witness for C8: positional arguments are forwarded unchanged; a
single one-element tuple does not match `add`'s two parameters, so it is
forwarded unchanged (and both paths being ill-formed is the only way the
adapter call is ill-formed). -/
theorem auto_unpack_fallback_witness :
    auto_unpack add [Val.vint 3, Val.vint 4] = add [Val.vint 3, Val.vint 4]
    ∧ auto_unpack add [Val.vtuple [Val.vint 1]]
      = add [Val.vtuple [Val.vint 1]]
    ∧ add [Val.vint 1] = none :=
  ⟨(auto_unpack_fallback add [Val.vint 3, Val.vint 4]).1
      (fun elems h => by simp at h),
   (auto_unpack_fallback add [Val.vtuple [Val.vint 1]]).2.1
      [Val.vint 1] rfl rfl,
   (auto_unpack_fallback add [Val.vint 1]).2.2 rfl⟩

/-- Claim C9: `compose` is extensionally the `pipe` of the reversed
callable list — `compose(c0, ..., cn-1)(args...)` equals
`pipe(cn-1, ..., c0)(args...)` on every argument list, including the
ill-formed cases. -/
theorem compose_is_reversed_pipe :
    ∀ (cs : List Prim) (args : List Val),
      composeRun cs args = pipeRun cs.reverse args := by
  intro cs
  induction cs with
  | nil => intro args; rfl
  | cons c tail ih =>
    intro args
    cases tail with
    | nil => rfl
    | cons d ds =>
      have hrev : (c :: d :: ds).reverse = (d :: ds).reverse ++ [c] := by
        simp
      rw [hrev, pipeRun_append_last c ((d :: ds).reverse) args (by simp),
        ← ih args]
      cases hc : composeRun (d :: ds) args with
      | none => simp [composeRun, hc]
      | some r =>
        cases r with
        | rvoid => simp [composeRun, hc]
        | val v => simp [composeRun, hc]

/-- Claim C10: every combinator's call operator is `const` and owns its
callables by value, so invocation is a pure function of the combinator
value and the arguments.  In the state-threading model: a combinator
built from state-indifferent (pure) callables neither modifies the
ambient state nor lets its result depend on it — the combinator machinery
adds no mutation of its own — hence two invocations with equal arguments
return equal results. -/
theorem combinator_invocation_const (σ : Type) :
    (∀ gs : List Prim,
        pipeRunE (σ := σ) (gs.map liftPrim) = liftPrim (pipeRun gs))
    ∧ (∀ gs : List Prim,
        composeRunE (σ := σ) (gs.map liftPrim) = liftPrim (composeRun gs))
    ∧ (∀ gs : List Prim,
        batteryRunE (σ := σ) (gs.map liftPrim) = liftPrim (batteryRun gs))
    ∧ (∀ g : Prim,
        auto_unpack_eff (σ := σ) (liftPrim g) = liftPrim (auto_unpack g))
    ∧ ∀ (g : Prim) (args : List Val) (s t : σ),
        (liftPrim (σ := σ) g args s).1 = s
        ∧ (liftPrim (σ := σ) g args s).2 = (liftPrim (σ := σ) g args t).2 :=
  ⟨lift_pipe, lift_compose, fun gs => lift_battery gs, lift_auto_unpack,
   fun _ _ _ _ => ⟨rfl, rfl⟩⟩

example : pipeRun [add3, mul3] [Val.vint 2] = some (Res.val (Val.vint 15)) := rfl
example : pipeRun [mul3, add3] [Val.vint 2] = some (Res.val (Val.vint 9)) := rfl
example : batteryRun [add, mul] [Val.vint 3, Val.vint 4] = some (Res.val (Val.vtuple [Val.vint 7, Val.vint 12])) := rfl
example : auto_unpack add [Val.vtuple [Val.vint 2, Val.vint 1]] = some (Res.val (Val.vint 3)) := rfl
example : pipeRun [divint, auto_unpack add] [Val.vint 5, Val.vint 2] = some (Res.val (Val.vint 3)) := rfl
example : composeRun [auto_unpack add, divint] [Val.vint 5, Val.vint 2] = some (Res.val (Val.vint 3)) := rfl
example : composeRun [add3, mul3] [Val.vint 2] = some (Res.val (Val.vint 9)) := rfl
example : composeRun [divint, auto_unpack add] [Val.vint 5, Val.vint 2] = none := rfl
example : composeRun [add3, mul3] [Val.vint 2] ≠ some (Res.val (Val.vint 15)) := by decide
example : divint [Val.vint 5, Val.vint 2] = some (Res.val (Val.vtuple [Val.vint 2, Val.vint 1])) := rfl
end funtup
